import Mathlib

/-!
Verification of the keto authorization check engine specification.

The development shallowly embeds:
* the namespace / rewrite AST and the fixtures of
  `internal/check/rewrites_test.go`,
* the check engine (modelled from the spec, the engine source itself is
  not part of the reviewed tree),
* the tuple canonical text form with `parse` and `format`,
* the in-memory namespace manager of
  `internal/driver/config/namespace_memory.go`.
-/

set_option maxHeartbeats 4000000
set_option maxRecDepth 100000

namespace Keto

/-- Rewrite operators. Modelled from the spec: `op ∈ {Union, Intersection,
Exclusion}`; `Union` is the default when unspecified (the fixture file only
ever sets `ast.OperatorAnd` explicitly). -/
inductive Operator where
  | union
  | intersection
  | exclusion
  deriving DecidableEq, Repr

/-- The closed sum type of rewrite AST nodes, as prescribed by the spec's
design note (the Go source uses interface-polymorphic nodes
`ast.SubjectSetRewrite`, `ast.ComputedSubjectSet`, `ast.TupleToSubjectSet`,
`ast.InvertResult`, exactly the four constructors below). -/
inductive RewriteNode where
  | subjectSetRewrite (operation : Operator) (children : List RewriteNode)
  | computedSubjectSet (relation : String)
  | tupleToSubjectSet (relation : String) (computedSubjectSetRelation : String)
  | invertResult (child : RewriteNode)

mutual

/-- Structural equality test for rewrite nodes (needed because automatic
`DecidableEq` derivation does not handle the nested `List`). -/
def rewriteNodeBeq : RewriteNode → RewriteNode → Bool
  | .subjectSetRewrite o1 c1, .subjectSetRewrite o2 c2 =>
      o1 == o2 && rewriteNodesBeq c1 c2
  | .computedSubjectSet r1, .computedSubjectSet r2 => r1 == r2
  | .tupleToSubjectSet r1 cr1, .tupleToSubjectSet r2 cr2 =>
      r1 == r2 && cr1 == cr2
  | .invertResult a, .invertResult b => rewriteNodeBeq a b
  | _, _ => false

/-- Structural equality test for lists of rewrite nodes. -/
def rewriteNodesBeq : List RewriteNode → List RewriteNode → Bool
  | [], [] => true
  | x :: xs, y :: ys => rewriteNodeBeq x y && rewriteNodesBeq xs ys
  | _, _ => false

end

mutual

/-- The test `rewriteNodeBeq` agrees with propositional equality. -/
def rewriteNodeBeqIff : ∀ a b : RewriteNode, rewriteNodeBeq a b = true ↔ a = b
  | .subjectSetRewrite o1 c1, .subjectSetRewrite o2 c2 => by
      simp [rewriteNodeBeq, rewriteNodesBeqIff c1 c2]
  | .subjectSetRewrite _ _, .computedSubjectSet _
  | .subjectSetRewrite _ _, .tupleToSubjectSet _ _
  | .subjectSetRewrite _ _, .invertResult _ => by simp [rewriteNodeBeq]
  | .computedSubjectSet _, .subjectSetRewrite _ _
  | .computedSubjectSet _, .tupleToSubjectSet _ _
  | .computedSubjectSet _, .invertResult _ => by simp [rewriteNodeBeq]
  | .computedSubjectSet r1, .computedSubjectSet r2 => by simp [rewriteNodeBeq]
  | .tupleToSubjectSet _ _, .subjectSetRewrite _ _
  | .tupleToSubjectSet _ _, .computedSubjectSet _
  | .tupleToSubjectSet _ _, .invertResult _ => by simp [rewriteNodeBeq]
  | .tupleToSubjectSet r1 cr1, .tupleToSubjectSet r2 cr2 => by
      simp [rewriteNodeBeq]
  | .invertResult _, .subjectSetRewrite _ _
  | .invertResult _, .computedSubjectSet _
  | .invertResult _, .tupleToSubjectSet _ _ => by simp [rewriteNodeBeq]
  | .invertResult a, .invertResult b => by
      simp [rewriteNodeBeq, rewriteNodeBeqIff a b]

/-- The test `rewriteNodesBeq` agrees with propositional equality. -/
def rewriteNodesBeqIff : ∀ a b : List RewriteNode,
    rewriteNodesBeq a b = true ↔ a = b
  | [], [] => by simp [rewriteNodesBeq]
  | [], _ :: _ => by simp [rewriteNodesBeq]
  | _ :: _, [] => by simp [rewriteNodesBeq]
  | x :: xs, y :: ys => by
      simp [rewriteNodesBeq, rewriteNodeBeqIff x y, rewriteNodesBeqIff xs ys]

end

instance : DecidableEq RewriteNode :=
  fun a b => decidable_of_iff _ (rewriteNodeBeqIff a b)

/-- A relation of a namespace: a name and an optional userset rewrite
(`ast.Relation`). Absence of a rewrite means the relation is direct. -/
structure Relation where
  name : String
  subjectSetRewrite : Option RewriteNode := none
  deriving DecidableEq

/-- A namespace: name, deprecated numeric config ID, ordered relation list
(`namespace.Namespace`). -/
structure Namespace where
  name : String
  id : Int := 0
  relations : List Relation := []
  deriving DecidableEq

/-- The subject of a relation tuple: either a bare subject id, or a subject
set `ns:obj#rel` denoting all members of that relation. -/
inductive Subject where
  | subjectID (idStr : String)
  | subjectSet (ns obj rel : String)
  deriving DecidableEq, Repr

/-- A relation tuple `ns:obj#rel@subj`. -/
structure RelationTuple where
  ns : String
  obj : String
  rel : String
  subj : Subject
  deriving DecidableEq, Repr

/-- Outcome of a membership check. -/
inductive Membership where
  | isMember
  | notMember
  | unknown
  deriving DecidableEq, Repr

/-- Errors a check can surface. -/
inductive CheckErr where
  | namespaceUnknown
  | relationUnknown
  deriving DecidableEq, Repr

/-- Explanation tree node: a label (canonical tuple string) and children. -/
inductive Tree where
  | node (label : String) (children : List Tree)

/-- Label of a tree node. -/
def Tree.label : Tree → String
  | .node l _ => l

/-- Children of a tree node. -/
def Tree.children : Tree → List Tree
  | .node _ c => c

/-- Result of a check: membership, optional explanation tree, optional
error. `unknown` with no error means depth exhaustion. -/
structure CheckResult where
  membership : Membership
  tree : Option Tree := none
  err : Option CheckErr := none

/-! ### Canonical text form of tuples

Modelled from the spec: the tuple codec (`parse` / `format`, grammar
`ns ':' obj '#' rel '@' subject`, subject either a bare id or
`ns ':' obj '#' [rel]` with a trailing `#` when the inner relation is
empty) is not part of the reviewed tree; only its grammar is specified. -/

/-- Characters of the canonical form of a subject. -/
def subjectChars : Subject → List Char
  | .subjectID i => i.data
  | .subjectSet n o r => n.data ++ ':' :: o.data ++ '#' :: r.data

/-- Characters of the canonical form `ns:obj#rel@subj` of a tuple. -/
def formatChars (t : RelationTuple) : List Char :=
  t.ns.data ++ ':' :: t.obj.data ++ '#' :: t.rel.data ++ '@' :: subjectChars t.subj

/-- Canonical string form of a tuple (`RelationTuple.String()`). -/
def format (t : RelationTuple) : String :=
  ⟨formatChars t⟩

/-- Split a character list at every occurrence of the separator `c`.
Always returns at least one group; `n` separators yield `n+1` groups. -/
def splitOnChar (c : Char) : List Char → List (List Char)
  | [] => [[]]
  | x :: xs =>
    match splitOnChar c xs with
    | [] => [[]]
    | g :: gs => if x = c then [] :: g :: gs else (x :: g) :: gs

/-- Parse the subject part of the canonical form: a bare id, or a subject
set `ns:obj#rel` whose relation may be empty. -/
def parseSubject (cs : List Char) : Option Subject :=
  match splitOnChar '#' cs with
  | [i] => some (.subjectID ⟨i⟩)
  | [no, r] =>
    match splitOnChar ':' no with
    | [n, o] => some (.subjectSet ⟨n⟩ ⟨o⟩ ⟨r⟩)
    | _ => none
  | _ => none

/-- Parse the canonical form `ns:obj#rel@subj` from characters. -/
def parseChars (cs : List Char) : Option RelationTuple :=
  match splitOnChar '@' cs with
  | [l, sub] =>
    match splitOnChar '#' l with
    | [no, r] =>
      match splitOnChar ':' no with
      | [n, o] => (parseSubject sub).map fun s => ⟨⟨n⟩, ⟨o⟩, ⟨r⟩, s⟩
      | _ => none
    | _ => none
  | _ => none

/-- Parse the canonical string form of a tuple. -/
def parse (s : String) : Option RelationTuple :=
  parseChars s.data

/-- A string free of the three separator characters `:`, `#`, `@`. -/
def sepFree (s : String) : Prop :=
  ':' ∉ s.data ∧ '#' ∉ s.data ∧ '@' ∉ s.data

instance (s : String) : Decidable (sepFree s) := by
  unfold sepFree; infer_instance

/-- Well-formedness of a tuple, as the spec's grammar demands: `ns`, `obj`,
`rel` (and a bare subject id) are non-empty and free of `:`, `#`, `@`; a
subject set has non-empty separator-free namespace and object, and a
separator-free, possibly empty, relation. -/
def wfTuple (t : RelationTuple) : Prop :=
  t.ns ≠ "" ∧ sepFree t.ns ∧ t.obj ≠ "" ∧ sepFree t.obj ∧
  t.rel ≠ "" ∧ sepFree t.rel ∧
  match t.subj with
  | .subjectID i => i ≠ "" ∧ sepFree i
  | .subjectSet n o r => n ≠ "" ∧ sepFree n ∧ o ≠ "" ∧ sepFree o ∧ sepFree r

instance (t : RelationTuple) : Decidable (wfTuple t) := by
  unfold wfTuple; exact match t.subj with
    | .subjectID _ => by dsimp; infer_instance
    | .subjectSet _ _ _ => by dsimp; infer_instance

/-! ### The check engine

Modelled from the spec: the engine (`internal/check`) is not part of the
reviewed tree; only its test is. The evaluator below follows §4.4 of the
spec: depth cap, namespace/relation resolution, a top-level `Union` group
of the direct branch, the subject-set expansion branch and the rewrite
branch, and the per-node evaluation of §4.4.3. The concurrent check-group
combinator is modelled denotationally by its decided outcome (the spec
declares it commutative in outcome). -/

/-- The decided outcome of one subcheck in a check-group: a membership,
the explanation subtrees it contributes, and an optional error. -/
structure SubResult where
  membership : Membership
  trees : List Tree := []
  err : Option CheckErr := none

/-- The `Union` outcome: an `isMember` wins; `notMember` only when all
complete as `notMember`; otherwise (a depth-exhausted branch among
non-members) `unknown`. -/
def unionM : List Membership → Membership
  | [] => .notMember
  | m :: ms =>
    match m with
    | .isMember => .isMember
    | .notMember => unionM ms
    | .unknown =>
      match unionM ms with
      | .isMember => .isMember
      | _ => .unknown

/-- The `Intersection` outcome: a `notMember` wins; `isMember` only when all
are `isMember`. -/
def intersectM : List Membership → Membership
  | [] => .isMember
  | m :: ms =>
    match m with
    | .notMember => .notMember
    | .isMember => intersectM ms
    | .unknown =>
      match intersectM ms with
      | .notMember => .notMember
      | _ => .unknown

/-- The `Exclusion` outcome: the first child is the base set; an `isMember`
among the subtracted children flips the result to `notMember`; a
`notMember` base decides `notMember`. -/
def exclusionM : List Membership → Membership
  | [] => .notMember
  | base :: rest =>
    match base, unionM rest with
    | .notMember, _ => .notMember
    | .unknown, _ => .unknown
    | .isMember, .isMember => .notMember
    | .isMember, .unknown => .unknown
    | .isMember, .notMember => .isMember

/-- The `InvertResult` action on memberships: swap `isMember ↔ notMember`; `unknown`
remains `unknown`. -/
def invertM : Membership → Membership
  | .isMember => .notMember
  | .notMember => .isMember
  | .unknown => .unknown

/-- Combine a check-group's subchecks under an operator. All subtrees are
kept for the explanation; a decided `isMember` group discards child errors
(spec §7), otherwise the first recorded error surfaces. -/
def combine (op : Operator) (subs : List SubResult) : SubResult :=
  let m := match op with
    | .union => unionM (subs.map (·.membership))
    | .intersection => intersectM (subs.map (·.membership))
    | .exclusion => exclusionM (subs.map (·.membership))
  { membership := m
    trees := (subs.map (·.trees)).flatten
    err := if m = .isMember then none else (subs.filterMap (·.err)).head? }

/-- Turn a recursive check result into a subcheck outcome: the subtree is
the result's tree, the membership and error pass through. -/
def subOfResult (res : CheckResult) : SubResult :=
  { membership := res.membership, trees := res.tree.toList, err := res.err }

/-- Turn a recursive check result into a subcheck outcome inside a branch
that tolerates unknown targets: an errored result counts as `notMember`
for the branch (spec §7: inside a `TupleToSubjectSet` target, unknown
namespaces or relations mean the pointed-at userset is empty). -/
def subTolerant (res : CheckResult) : SubResult :=
  if res.err.isSome then { membership := .notMember }
  else { membership := res.membership, trees := res.tree.toList }

/-- Subject-set tuples `ns:obj#rel@sns:sobj#srel` stored for the given
`(ns, obj, rel)` key, as `(sns, sobj, srel)` triples — the store range
query driving `TupleToSubjectSet` and the subject-set expansion branch. -/
def subjectSetTuples (store : List RelationTuple) (n o r : String) :
    List (String × String × String) :=
  store.filterMap fun u =>
    if u.ns = n ∧ u.obj = o ∧ u.rel = r then
      match u.subj with
      | .subjectSet sns sobj srel => some (sns, sobj, srel)
      | .subjectID _ => none
    else none

/-- The subject-set tuples the expansion branch of §4.4.1 follows: those
whose subject set names an inner relation (a whole-object subject set
`sns:sobj#` carries no relation to recurse into and is left to
`TupleToSubjectSet` nodes). -/
def expandTargets (store : List RelationTuple) (n o r : String) :
    List (String × String × String) :=
  (subjectSetTuples store n o r).filter fun tgt => !(tgt.2.2 == "")

mutual

/-- Per-node evaluation of a rewrite AST node in context
`(n, o, s)` = (namespace, object, queried subject), recursing into the
engine through `rec` (the check at the remaining depth):
`computedSubjectSet r` checks `n:o#r@s`; `tupleToSubjectSet r cr` queries
the store for subject-set tuples `n:o#r@*` and checks `sns:sobj#cr@s` for
each, combined under `Union`; operator nodes combine their children under
their operator without consuming depth; `invertResult` flips the child's
membership. -/
def evalNode (store : List RelationTuple) (rec : RelationTuple → CheckResult)
    (n o : String) (s : Subject) : RewriteNode → SubResult
  | .subjectSetRewrite op children =>
      combine op (evalNodes store rec n o s children)
  | .computedSubjectSet r => subOfResult (rec ⟨n, o, r, s⟩)
  | .tupleToSubjectSet r cr =>
      combine .union <|
        (subjectSetTuples store n o r).map fun tgt =>
          subTolerant (rec ⟨tgt.1, tgt.2.1, cr, s⟩)
  | .invertResult child =>
      let sub := evalNode store rec n o s child
      { membership := invertM sub.membership, trees := sub.trees
        err := sub.err }

/-- Evaluate a list of rewrite AST nodes (the children of an operator
node). -/
def evalNodes (store : List RelationTuple) (rec : RelationTuple → CheckResult)
    (n o : String) (s : Subject) : List RewriteNode → List SubResult
  | [] => []
  | x :: xs => evalNode store rec n o s x :: evalNodes store rec n o s xs

end

/-- Look a namespace up by name in the captured namespace configuration. -/
def lookupNs (cfg : List Namespace) (n : String) : Option Namespace :=
  cfg.find? (fun nsp => nsp.name == n)

/-- Find a relation by name on a namespace. -/
def lookupRel (nsp : Namespace) (r : String) : Option Relation :=
  nsp.relations.find? (fun rl => rl.name == r)

/-- One semantic level of the check engine (spec §4.4.1): resolve the
namespace and the relation (absence is an error), then decide the `Union`
of the direct branch (an exact stored-tuple hit), the subject-set
expansion branch (stored tuples `ns:obj#rel@sns:sobj#srel` with a named
inner relation, recursing into `sns:sobj#srel@subj`), and the rewrite
branch when the relation carries one. Every recursive check goes through
`rec`, the engine at the remaining depth. The result's tree is rooted at
the query's canonical string. -/
def checkStep (cfg : List Namespace) (store : List RelationTuple)
    (rec : RelationTuple → CheckResult) (t : RelationTuple) : CheckResult :=
  match lookupNs cfg t.ns with
  | none => { membership := .unknown, err := some .namespaceUnknown }
  | some nsp =>
    match lookupRel nsp t.rel with
    | none => { membership := .unknown, err := some .relationUnknown }
    | some rl =>
      let direct : SubResult :=
        if t ∈ store then { membership := .isMember, trees := [.node (format t) []] }
        else { membership := .notMember }
      let expand : List SubResult :=
        (expandTargets store t.ns t.obj t.rel).map fun tgt =>
          subTolerant (rec ⟨tgt.1, tgt.2.1, tgt.2.2, t.subj⟩)
      let rewriteSubs : List SubResult :=
        match rl.subjectSetRewrite with
        | none => []
        | some node => [evalNode store rec t.ns t.obj t.subj node]
      let g := combine .union (direct :: expand ++ rewriteSubs)
      { membership := g.membership, tree := some (.node (format t) g.trees)
        err := g.err }

/-- The check engine `check(tuple, max_depth)` (spec §4.4, §6.2): at depth
zero return `unknown` with no error (the depth-exceeded marker, not a hard
error); otherwise run one semantic level, handing the remaining depth to
every recursive check. -/
def check (cfg : List Namespace) (store : List RelationTuple) :
    Nat → RelationTuple → CheckResult
  | 0, _ => { membership := .unknown }
  | d + 1, t => checkStep cfg store (check cfg store d) t

/-! ### Fixtures of `internal/check/rewrites_test.go` -/

/-- Build a tuple `n:o#r@s`. -/
abbrev tup (n o r : String) (s : Subject) : RelationTuple := ⟨n, o, r, s⟩

/-- A bare subject id. -/
abbrev sid (i : String) : Subject := .subjectID i

/-- A subject set `n:o#r`. -/
abbrev sset (n o r : String) : Subject := .subjectSet n o r

/-- The namespace configuration of `rewrites_test.go` (`var namespaces`). -/
def fixtureNamespaces : List Namespace :=
  [ { name := "doc"
      relations :=
        [ { name := "owner" }
        , { name := "editor"
            subjectSetRewrite := some (.subjectSetRewrite .union
              [.computedSubjectSet "owner"]) }
        , { name := "viewer"
            subjectSetRewrite := some (.subjectSetRewrite .union
              [ .computedSubjectSet "editor"
              , .tupleToSubjectSet "parent" "viewer"]) } ] }
  , { name := "group", relations := [{ name := "member" }] }
  , { name := "level", relations := [{ name := "member" }] }
  , { name := "resource"
      relations :=
        [ { name := "level" }
        , { name := "viewer"
            subjectSetRewrite := some (.subjectSetRewrite .union
              [.tupleToSubjectSet "owner" "member"]) }
        , { name := "owner"
            subjectSetRewrite := some (.subjectSetRewrite .union
              [.tupleToSubjectSet "owner" "member"]) }
        , { name := "read"
            subjectSetRewrite := some (.subjectSetRewrite .union
              [ .computedSubjectSet "viewer"
              , .computedSubjectSet "owner"]) }
        , { name := "update"
            subjectSetRewrite := some (.subjectSetRewrite .union
              [.computedSubjectSet "owner"]) }
        , { name := "delete"
            subjectSetRewrite := some (.subjectSetRewrite .intersection
              [ .computedSubjectSet "owner"
              , .tupleToSubjectSet "level" "member"]) } ] }
  , { name := "acl"
      relations :=
        [ { name := "allow" }
        , { name := "deny" }
        , { name := "access"
            subjectSetRewrite := some (.subjectSetRewrite .intersection
              [ .computedSubjectSet "allow"
              , .invertResult (.computedSubjectSet "deny")]) } ] } ]

/-- The stored relation tuples of `rewrites_test.go` (`insertFixtures`). -/
def fixtureStore : List RelationTuple :=
  [ tup "doc" "document" "owner" (sid "user")
  , tup "doc" "doc_in_folder" "parent" (sset "doc" "folder" "")
  , tup "doc" "folder" "owner" (sid "user")
  , tup "doc" "file" "parent" (sset "doc" "folder_c" "")
  , tup "doc" "folder_c" "parent" (sset "doc" "folder_b" "")
  , tup "doc" "folder_b" "parent" (sset "doc" "folder_a" "")
  , tup "doc" "folder_a" "owner" (sid "user")
  , tup "group" "editors" "member" (sid "mark")
  , tup "level" "superadmin" "member" (sid "mark")
  , tup "level" "superadmin" "member" (sid "sandy")
  , tup "resource" "topsecret" "owner" (sset "group" "editors" "")
  , tup "resource" "topsecret" "level" (sset "level" "superadmin" "")
  , tup "resource" "topsecret" "owner" (sid "mike")
  , tup "acl" "document" "allow" (sid "alice")
  , tup "acl" "document" "allow" (sid "bob")
  , tup "acl" "document" "allow" (sid "mallory")
  , tup "acl" "document" "deny" (sid "mallory") ]

/-- Membership of a fixture query at the test's depth 100. -/
def fixtureCheck (t : RelationTuple) : CheckResult :=
  check fixtureNamespaces fixtureStore 100 t

/-! ### Tree predicates -/

mutual

/-- Does some leaf (childless descendant, the tree root included) of the
tree satisfy `p`? Equivalently: is there a root-to-leaf path whose leaf
label satisfies `p`? -/
def Tree.anyLeaf (p : String → Bool) : Tree → Bool
  | .node l [] => p l
  | .node _ (c :: cs) => Tree.anyLeafList p (c :: cs)

/-- Does some leaf of some tree in the list satisfy `p`? -/
def Tree.anyLeafList (p : String → Bool) : List Tree → Bool
  | [] => false
  | t :: ts => Tree.anyLeaf p t || Tree.anyLeafList p ts

end

/-- Mirror of the test helper `hasPath`: the label list is a chain from
the root downward, `*` matching any label; a path that ends early is
found as soon as its labels are matched. -/
def hasPath : List String → Tree → Bool
  | [], _ => true
  | [l], t => l == "*" || l == t.label
  | l :: l' :: rest, t =>
      (l == "*" || l == t.label) &&
        t.children.any fun c => hasPath (l' :: rest) c

/-- Is `l` the canonical string of a stored tuple? -/
def storedLeafLabel (store : List RelationTuple) (l : String) : Bool :=
  store.any fun u => format u == l

mutual

/-- A rewrite node is positive when every operator node has at least one
child (the spec's §3.3 invariant) and no `invertResult` occurs in it. -/
def nodePositive : RewriteNode → Bool
  | .subjectSetRewrite _ children => !children.isEmpty && nodesPositive children
  | .computedSubjectSet _ => true
  | .tupleToSubjectSet _ _ => true
  | .invertResult _ => false

/-- All nodes of the list are positive. -/
def nodesPositive : List RewriteNode → Bool
  | [] => true
  | x :: xs => nodePositive x && nodesPositive xs

end

/-- Every rewrite of every relation of the configuration is positive. -/
def cfgPositive (cfg : List Namespace) : Bool :=
  cfg.all fun nsp => nsp.relations.all fun rl =>
    match rl.subjectSetRewrite with
    | none => true
    | some node => nodePositive node

/-- The fixture configuration without the `acl` namespace — its rewrites
are positive (no `invertResult`). -/
def fixtureNoAcl : List Namespace := fixtureNamespaces.take 4

/-- A configuration with the cyclic rewrite `rel = Union(ComputedSubjectSet(rel))`
from the spec's cycle-avoidance section. -/
def cyclicNamespaces : List Namespace :=
  [ { name := "c"
      relations :=
        [ { name := "rel"
            subjectSetRewrite := some (.subjectSetRewrite .union
              [.computedSubjectSet "rel"]) } ] } ]

/-- A configuration whose relation `r` is a bare inversion of the direct
relation `d`: `r = Union(InvertResult(ComputedSubjectSet(d)))`. -/
def invertNamespaces : List Namespace :=
  [ { name := "n"
      relations :=
        [ { name := "d" }
        , { name := "r"
            subjectSetRewrite := some (.subjectSetRewrite .union
              [.invertResult (.computedSubjectSet "d")]) } ] } ]

/-! ### The in-memory namespace manager
(`internal/driver/config/namespace_memory.go`)

The Go `map[string]*namespace.Namespace` is modelled as an association
list with unique keys: insertion replaces the entry of the same key,
enumeration follows the (unspecified) list order. -/

/-- Error of a failed registry lookup (`herodot.ErrNotFound`). -/
inductive NsError where
  | notFound
  deriving DecidableEq, Repr

/-- Map an entry in, replacing any previous entry of the same key
(`m[k] = v` on a Go map). -/
def mapInsert (k : String) (v : Namespace) (l : List (String × Namespace)) :
    List (String × Namespace) :=
  (k, v) :: l.filter fun p => !(p.1 == k)

/-- The `memoryNamespaceManager` state: namespaces keyed by name. -/
structure MemoryNamespaceManager where
  byName : List (String × Namespace)
  deriving DecidableEq

/-- Constructor `NewMemoryNamespaceManager`: key each given namespace by its name;
a later namespace of the same name replaces an earlier one. -/
def NewMemoryNamespaceManager (nn : List Namespace) : MemoryNamespaceManager :=
  ⟨nn.foldl (fun l n => mapInsert n.name n l) []⟩

/-- Lookup `GetNamespaceByName`: the entry stored under exactly this name, or a
not-found error. -/
def GetNamespaceByName (m : MemoryNamespaceManager) (name : String) :
    Except NsError Namespace :=
  match m.byName.find? (fun p => p.1 == name) with
  | some p => .ok p.2
  | none => .error .notFound

/-- Enumeration `Namespaces`: list the stored namespaces. -/
def MemoryNamespaceManager.namespaces (m : MemoryNamespaceManager) :
    List Namespace :=
  m.byName.map (·.2)

/-- Predicate `ShouldReload`: reload unless the new value is deeply equal to the
enumeration of the stored namespaces. -/
def ShouldReload (m : MemoryNamespaceManager) (newValue : List Namespace) :
    Bool :=
  !(decide (newValue = m.namespaces))

/-- Operation `add`: store a namespace under its name. -/
def MemoryNamespaceManager.add (m : MemoryNamespaceManager) (n : Namespace) :
    MemoryNamespaceManager :=
  ⟨mapInsert n.name n m.byName⟩

/-- Operation `delete`: drop the entry stored under the namespace's name. -/
def MemoryNamespaceManager.remove (m : MemoryNamespaceManager) (n : Namespace) :
    MemoryNamespaceManager :=
  ⟨m.byName.filter fun p => !(p.1 == n.name)⟩

end Keto

/-! ## Helper lemmas about the engine -/

namespace Keto

theorem check_zero (cfg : List Namespace) (store : List RelationTuple)
    (t : RelationTuple) : check cfg store 0 t = { membership := .unknown } := rfl

theorem check_succ (cfg : List Namespace) (store : List RelationTuple)
    (d : Nat) : check cfg store (d + 1) = checkStep cfg store (check cfg store d) :=
  rfl

theorem unionM_eq_isMember {ms : List Membership} :
    unionM ms = .isMember ↔ .isMember ∈ ms := by
  induction ms with
  | nil => simp [unionM]
  | cons m ms ih =>
    cases m with
    | isMember => simp [unionM]
    | notMember => simp [unionM, ih]
    | unknown =>
      cases h : unionM ms with
      | isMember => simp [unionM, h, ih.mp h]
      | notMember =>
        have hnm : Membership.isMember ∉ ms := fun hm => by
          rw [ih.mpr hm] at h; exact absurd h (by simp)
        simp [unionM, h, hnm]
      | unknown =>
        have hnm : Membership.isMember ∉ ms := fun hm => by
          rw [ih.mpr hm] at h; exact absurd h (by simp)
        simp [unionM, h, hnm]

theorem intersectM_eq_isMember {ms : List Membership} :
    intersectM ms = .isMember ↔ ∀ m ∈ ms, m = .isMember := by
  induction ms with
  | nil => simp [intersectM]
  | cons m ms ih =>
    cases m with
    | isMember => simp [intersectM, ih]
    | notMember =>
      simp only [intersectM]
      constructor
      · intro h; exact absurd h (by simp)
      · intro h; exact absurd (h _ (List.mem_cons_self _ _)) (by simp)
    | unknown =>
      have hne : ¬(∀ m ∈ (Membership.unknown :: ms), m = .isMember) := by
        intro h; exact absurd (h _ (List.mem_cons_self _ _)) (by simp)
      cases h : intersectM ms with
      | isMember => simp only [intersectM, h]; exact iff_of_false (by simp) hne
      | notMember => simp only [intersectM, h]; exact iff_of_false (by simp) hne
      | unknown => simp only [intersectM, h]; exact iff_of_false (by simp) hne

theorem exclusionM_eq_isMember {base : Membership} {rest : List Membership} :
    exclusionM (base :: rest) = .isMember ↔
      base = .isMember ∧ unionM rest = .notMember := by
  cases base <;> cases h : unionM rest <;> simp [exclusionM, h]

theorem evalNodes_eq_map (store : List RelationTuple)
    (rec : RelationTuple → CheckResult) (n o : String) (s : Subject) :
    ∀ nodes : List RewriteNode,
      evalNodes store rec n o s nodes = nodes.map (evalNode store rec n o s)
  | [] => rfl
  | x :: xs => by
      simp [evalNodes, evalNodes_eq_map store rec n o s xs]

theorem combine_membership (op : Operator) (subs : List SubResult) :
    (combine op subs).membership =
      match op with
      | .union => unionM (subs.map (·.membership))
      | .intersection => intersectM (subs.map (·.membership))
      | .exclusion => exclusionM (subs.map (·.membership)) := rfl

theorem combine_trees (op : Operator) (subs : List SubResult) :
    (combine op subs).trees = (subs.map (·.trees)).flatten := rfl

theorem checkStep_direct_only (cfg : List Namespace) (store : List RelationTuple)
    (rec : RelationTuple → CheckResult) (t : RelationTuple)
    {nsp : Namespace} {rl : Relation}
    (hns : lookupNs cfg t.ns = some nsp)
    (hrl : lookupRel nsp t.rel = some rl)
    (hrw : rl.subjectSetRewrite = none)
    (hexp : expandTargets store t.ns t.obj t.rel = []) :
    checkStep cfg store rec t =
      if t ∈ store then
        { membership := .isMember
          tree := some (.node (format t) [.node (format t) []]) }
      else
        { membership := .notMember, tree := some (.node (format t) []) } := by
  by_cases h : t ∈ store <;>
    simp [checkStep, hns, hrl, hrw, hexp, h, combine, unionM]

theorem checkStep_m_hit (cfg : List Namespace) (store : List RelationTuple)
    (rec : RelationTuple → CheckResult) (t : RelationTuple)
    {nsp : Namespace} {rl : Relation}
    (hns : lookupNs cfg t.ns = some nsp)
    (hrl : lookupRel nsp t.rel = some rl)
    (hdir : t ∈ store) :
    (checkStep cfg store rec t).membership = .isMember := by
  simp [checkStep, hns, hrl, hdir, combine, unionM]

theorem checkStep_rw_miss (cfg : List Namespace) (store : List RelationTuple)
    (rec : RelationTuple → CheckResult) (t : RelationTuple)
    {nsp : Namespace} {rl : Relation} {node : RewriteNode}
    (hns : lookupNs cfg t.ns = some nsp)
    (hrl : lookupRel nsp t.rel = some rl)
    (hrw : rl.subjectSetRewrite = some node)
    (hexp : expandTargets store t.ns t.obj t.rel = [])
    (hdir : t ∉ store) :
    checkStep cfg store rec t =
      { membership := (evalNode store rec t.ns t.obj t.subj node).membership
        tree := some (.node (format t) (evalNode store rec t.ns t.obj t.subj node).trees)
        err := if (evalNode store rec t.ns t.obj t.subj node).membership = .isMember
               then none
               else (evalNode store rec t.ns t.obj t.subj node).err } := by
  cases hm : (evalNode store rec t.ns t.obj t.subj node).membership <;>
    cases he : (evalNode store rec t.ns t.obj t.subj node).err <;>
      simp [checkStep, hns, hrl, hrw, hexp, hdir, hm, he, combine, unionM]

end Keto

namespace Keto

theorem member_level_eval (s : Subject) (d : Nat) :
    check fixtureNamespaces fixtureStore (d + 1) (tup "level" "superadmin" "member" s) =
      if tup "level" "superadmin" "member" s ∈ fixtureStore then
        { membership := .isMember
          tree := some (.node (format (tup "level" "superadmin" "member" s))
            [.node (format (tup "level" "superadmin" "member" s)) []]) }
      else
        { membership := .notMember
          tree := some (.node (format (tup "level" "superadmin" "member" s)) []) } := by
  rw [check_succ]
  exact checkStep_direct_only _ _ _ _ rfl rfl rfl rfl

theorem member_group_eval (s : Subject) (d : Nat) :
    check fixtureNamespaces fixtureStore (d + 1) (tup "group" "editors" "member" s) =
      if tup "group" "editors" "member" s ∈ fixtureStore then
        { membership := .isMember
          tree := some (.node (format (tup "group" "editors" "member" s))
            [.node (format (tup "group" "editors" "member" s)) []]) }
      else
        { membership := .notMember
          tree := some (.node (format (tup "group" "editors" "member" s)) []) } := by
  rw [check_succ]
  exact checkStep_direct_only _ _ _ _ rfl rfl rfl rfl

theorem allow_eval (s : Subject) (d : Nat) :
    check fixtureNamespaces fixtureStore (d + 1) (tup "acl" "document" "allow" s) =
      if tup "acl" "document" "allow" s ∈ fixtureStore then
        { membership := .isMember
          tree := some (.node (format (tup "acl" "document" "allow" s))
            [.node (format (tup "acl" "document" "allow" s)) []]) }
      else
        { membership := .notMember
          tree := some (.node (format (tup "acl" "document" "allow" s)) []) } := by
  rw [check_succ]
  exact checkStep_direct_only _ _ _ _ rfl rfl rfl rfl

theorem deny_eval (s : Subject) (d : Nat) :
    check fixtureNamespaces fixtureStore (d + 1) (tup "acl" "document" "deny" s) =
      if tup "acl" "document" "deny" s ∈ fixtureStore then
        { membership := .isMember
          tree := some (.node (format (tup "acl" "document" "deny" s))
            [.node (format (tup "acl" "document" "deny" s)) []]) }
      else
        { membership := .notMember
          tree := some (.node (format (tup "acl" "document" "deny" s)) []) } := by
  rw [check_succ]
  exact checkStep_direct_only _ _ _ _ rfl rfl rfl rfl

theorem owner_eval_m (s : Subject) (d : Nat) :
    (check fixtureNamespaces fixtureStore (d + 2)
        (tup "resource" "topsecret" "owner" s)).membership =
      if tup "resource" "topsecret" "owner" s ∈ fixtureStore then .isMember
      else if tup "group" "editors" "member" s ∈ fixtureStore then .isMember
      else .notMember := by
  have h2 : d + 2 = (d + 1) + 1 := rfl
  by_cases h : tup "resource" "topsecret" "owner" s ∈ fixtureStore
  · rw [h2, check_succ, if_pos h]
    exact checkStep_m_hit _ _ _ _ rfl rfl h
  · rw [h2, check_succ, if_neg h,
      checkStep_rw_miss fixtureNamespaces fixtureStore
        (check fixtureNamespaces fixtureStore (d + 1))
        (tup "resource" "topsecret" "owner" s) rfl rfl rfl rfl h]
    have hss : subjectSetTuples fixtureStore "resource" "topsecret" "owner"
        = [("group", "editors", "")] := rfl
    by_cases hg : tup "group" "editors" "member" s ∈ fixtureStore <;>
      simp [evalNode, evalNodes, hss, subTolerant, member_group_eval s d,
        hg, combine, unionM, tup]

end Keto

namespace Keto

theorem access_eval_m (s : Subject) :
    (fixtureCheck (tup "acl" "document" "access" s)).membership =
      if tup "acl" "document" "allow" s ∈ fixtureStore then
        if tup "acl" "document" "deny" s ∈ fixtureStore then .notMember
        else .isMember
      else .notMember := by
  have hd : tup "acl" "document" "access" s ∉ fixtureStore := by
    simp [fixtureStore]
  unfold fixtureCheck
  rw [show (100 : Nat) = 99 + 1 from rfl, check_succ,
    checkStep_rw_miss fixtureNamespaces fixtureStore
      (check fixtureNamespaces fixtureStore 99)
      (tup "acl" "document" "access" s) rfl rfl rfl rfl hd]
  have ha := allow_eval s 98
  have hde := deny_eval s 98
  norm_num at ha hde
  by_cases h1 : tup "acl" "document" "allow" s ∈ fixtureStore <;>
    by_cases h2 : tup "acl" "document" "deny" s ∈ fixtureStore <;>
      simp [evalNode, evalNodes, subOfResult, subTolerant, invertM, combine,
        unionM, intersectM, ha, hde, h1, h2]

theorem delete_eval_m (s : Subject) :
    (fixtureCheck (tup "resource" "topsecret" "delete" s)).membership =
      if (tup "resource" "topsecret" "owner" s ∈ fixtureStore ∨
            tup "group" "editors" "member" s ∈ fixtureStore) ∧
          tup "level" "superadmin" "member" s ∈ fixtureStore then .isMember
      else .notMember := by
  have hd : tup "resource" "topsecret" "delete" s ∉ fixtureStore := by
    simp [fixtureStore]
  unfold fixtureCheck
  rw [show (100 : Nat) = 99 + 1 from rfl, check_succ,
    checkStep_rw_miss fixtureNamespaces fixtureStore
      (check fixtureNamespaces fixtureStore 99)
      (tup "resource" "topsecret" "delete" s) rfl rfl rfl rfl hd]
  have ho := owner_eval_m s 97
  have hl := member_level_eval s 98
  norm_num at ho hl
  have hss : subjectSetTuples fixtureStore "resource" "topsecret" "level"
      = [("level", "superadmin", "")] := rfl
  by_cases h1 : tup "resource" "topsecret" "owner" s ∈ fixtureStore <;>
    by_cases h2 : tup "group" "editors" "member" s ∈ fixtureStore <;>
      by_cases h3 : tup "level" "superadmin" "member" s ∈ fixtureStore <;>
        simp [evalNode, evalNodes, subOfResult, subTolerant, combine,
          unionM, intersectM, hss, ho, hl, h1, h2, h3]

end Keto

namespace Keto

theorem combine_union_isMember {subs : List SubResult} :
    (combine .union subs).membership = .isMember ↔
      ∃ sub ∈ subs, sub.membership = .isMember := by
  rw [combine_membership]
  simp only [unionM_eq_isMember, List.mem_map]

theorem subTolerant_isMember {res : CheckResult} :
    (subTolerant res).membership = .isMember ↔
      res.membership = .isMember ∧ res.err = none := by
  cases he : res.err with
  | none => simp [subTolerant, he]
  | some e => simp [subTolerant, he]

theorem mem_subjectSetTuples {store : List RelationTuple}
    {n o r sns sobj srel : String} :
    (sns, sobj, srel) ∈ subjectSetTuples store n o r ↔
      ∃ u ∈ store, u.ns = n ∧ u.obj = o ∧ u.rel = r ∧
        u.subj = .subjectSet sns sobj srel := by
  simp only [subjectSetTuples, List.mem_filterMap]
  constructor
  · rintro ⟨u, hu, hf⟩
    refine ⟨u, hu, ?_⟩
    by_cases hc : u.ns = n ∧ u.obj = o ∧ u.rel = r
    · rw [if_pos hc] at hf
      cases hs : u.subj with
      | subjectID i => rw [hs] at hf; exact absurd hf (by simp)
      | subjectSet a b c =>
        rw [hs] at hf
        simp only [Option.some.injEq, Prod.mk.injEq] at hf
        obtain ⟨ha, hb, hc2⟩ := hf
        subst ha; subst hb; subst hc2
        exact ⟨hc.1, hc.2.1, hc.2.2, rfl⟩
    · rw [if_neg hc] at hf; exact absurd hf (by simp)
  · rintro ⟨u, hu, h1, h2, h3, h4⟩
    exact ⟨u, hu, by rw [if_pos ⟨h1, h2, h3⟩, h4]⟩

/-- C1: for the relation `access = Intersection(ComputedSubjectSet(allow),
InvertResult(ComputedSubjectSet(deny)))` on namespace `acl`, and for every
subject `s`, `check(acl:document#access@s, 100)` is `IsMember` iff
`acl:document#allow@s` is stored and `acl:document#deny@s` is not; with
the fixtures, alice and bob are members and mallory is not. -/
theorem acl_access_exclusion_correct :
    (∀ s : Subject,
      (fixtureCheck (tup "acl" "document" "access" s)).membership = .isMember ↔
        tup "acl" "document" "allow" s ∈ fixtureStore ∧
        tup "acl" "document" "deny" s ∉ fixtureStore) ∧
    (fixtureCheck (tup "acl" "document" "access" (sid "alice"))).membership
      = .isMember ∧
    (fixtureCheck (tup "acl" "document" "access" (sid "bob"))).membership
      = .isMember ∧
    (fixtureCheck (tup "acl" "document" "access" (sid "mallory"))).membership
      = .notMember := by
  refine ⟨fun s => ?_, by decide, by decide, by decide⟩
  rw [access_eval_m s]
  by_cases h1 : tup "acl" "document" "allow" s ∈ fixtureStore <;>
    by_cases h2 : tup "acl" "document" "deny" s ∈ fixtureStore <;>
      simp [h1, h2]

/-- C2: for the relation `delete = Intersection(ComputedSubjectSet(owner),
TupleToSubjectSet(level, member))` on `resource:topsecret` and every
subject `s`, check is `IsMember` iff `s` is a member of `owner` on the
same object and of the `member` relation of `level:superadmin`, the
object pointed to by the stored `level` tuple; with the fixtures, mark is
a member while mike and sandy are not. -/
theorem resource_delete_intersection_correct :
    (∀ s : Subject,
      (fixtureCheck (tup "resource" "topsecret" "delete" s)).membership
          = .isMember ↔
        ((fixtureCheck (tup "resource" "topsecret" "owner" s)).membership
            = .isMember ∧
         (fixtureCheck (tup "level" "superadmin" "member" s)).membership
            = .isMember)) ∧
    (fixtureCheck (tup "resource" "topsecret" "delete" (sid "mark"))).membership
      = .isMember ∧
    (fixtureCheck (tup "resource" "topsecret" "delete" (sid "mike"))).membership
      = .notMember ∧
    (fixtureCheck (tup "resource" "topsecret" "delete" (sid "sandy"))).membership
      = .notMember := by
  refine ⟨fun s => ?_, by decide, by decide, by decide⟩
  have ho := owner_eval_m s 98
  have hl := member_level_eval s 99
  norm_num at ho hl
  rw [delete_eval_m s]
  show _ ↔ ((check fixtureNamespaces fixtureStore 100
      (tup "resource" "topsecret" "owner" s)).membership = .isMember ∧
    (check fixtureNamespaces fixtureStore 100
      (tup "level" "superadmin" "member" s)).membership = .isMember)
  by_cases h1 : tup "resource" "topsecret" "owner" s ∈ fixtureStore <;>
    by_cases h2 : tup "group" "editors" "member" s ∈ fixtureStore <;>
      by_cases h3 : tup "level" "superadmin" "member" s ∈ fixtureStore <;>
        simp [ho, hl, h1, h2, h3]

/-- C3: a `TupleToSubjectSet(r, cr)` node in context `(ns, obj, subj)`
queries the store for the subject-set tuples `ns:obj#r@*` and combines,
under `Union`, the recursive checks `sns:sobj#cr@subj` for every result
whose subject is a subject set `sns:sobj#srel`; consequently
`check(doc:file#viewer@user, 100)` is `IsMember` through the four stored
parent subject-set tuples. -/
theorem tupleToSubjectSet_union_semantics :
    (∀ (store : List RelationTuple) (rec : RelationTuple → CheckResult)
        (n o : String) (s : Subject) (r cr : String),
      (evalNode store rec n o s (.tupleToSubjectSet r cr)).membership
          = .isMember ↔
        ∃ u ∈ store, u.ns = n ∧ u.obj = o ∧ u.rel = r ∧
          ∃ sns sobj srel, u.subj = .subjectSet sns sobj srel ∧
            (rec ⟨sns, sobj, cr, s⟩).membership = .isMember ∧
            (rec ⟨sns, sobj, cr, s⟩).err = none) ∧
    (fixtureCheck (tup "doc" "file" "viewer" (sid "user"))).membership
      = .isMember := by
  refine ⟨fun store rec n o s r cr => ?_, by decide⟩
  rw [show evalNode store rec n o s (.tupleToSubjectSet r cr)
      = combine .union ((subjectSetTuples store n o r).map fun tgt =>
          subTolerant (rec ⟨tgt.1, tgt.2.1, cr, s⟩)) from rfl]
  rw [combine_union_isMember]
  constructor
  · rintro ⟨sub, hmem, hm⟩
    rw [List.mem_map] at hmem
    obtain ⟨⟨sns, sobj, srel⟩, htgt, rfl⟩ := hmem
    rw [subTolerant_isMember] at hm
    obtain ⟨u, hu, h1, h2, h3, h4⟩ := mem_subjectSetTuples.mp htgt
    exact ⟨u, hu, h1, h2, h3, sns, sobj, srel, h4, hm.1, hm.2⟩
  · rintro ⟨u, hu, h1, h2, h3, sns, sobj, srel, h4, hm, he⟩
    refine ⟨subTolerant (rec ⟨sns, sobj, cr, s⟩), ?_, ?_⟩
    · rw [List.mem_map]
      exact ⟨(sns, sobj, srel),
        mem_subjectSetTuples.mpr ⟨u, hu, h1, h2, h3, h4⟩, rfl⟩
    · rw [subTolerant_isMember]; exact ⟨hm, he⟩

/-- C5: for every query tuple, `check` at `max_depth = 0` immediately
returns `Unknown` with no tree and no error attached — the depth-exceeded
marker is the absence of an error, not a hard failure. -/
theorem check_depth_zero_unknown :
    ∀ (cfg : List Namespace) (store : List RelationTuple) (t : RelationTuple),
      check cfg store 0 t =
        { membership := Membership.unknown, tree := none, err := none } :=
  fun _ _ _ => rfl

/-- C4: `check` terminates for every query and depth, unfolding into at
most `max_depth` iterations of the one-step engine `checkStep`: the depth
decrements on every recursive check (including through
`ComputedSubjectSet` and `TupleToSubjectSet`, which call the engine at
the handed-down remaining depth), while operator nodes of the same
rewrite are evaluated with the unchanged recursion (no decrement); even
on the cyclic rewrite `rel = Union(ComputedSubjectSet(rel))` evaluation
is bounded, ending in `Unknown` at every depth. -/
theorem check_depth_cap :
    (∀ (cfg : List Namespace) (store : List RelationTuple) (d : Nat),
      check cfg store d =
        (checkStep cfg store)^[d] (fun _ => { membership := Membership.unknown })) ∧
    (∀ (store : List RelationTuple) (rec : RelationTuple → CheckResult)
        (n o : String) (s : Subject) (op : Operator)
        (children : List RewriteNode),
      evalNode store rec n o s (.subjectSetRewrite op children) =
        combine op (evalNodes store rec n o s children)) ∧
    (∀ d : Nat,
      (check cyclicNamespaces [] d (tup "c" "obj" "rel" (sid "x"))).membership
        = .unknown) := by
  refine ⟨fun cfg store d => ?_, fun _ _ _ _ _ _ _ => rfl, fun d => ?_⟩
  · induction d with
    | zero => rfl
    | succ d ih => rw [Function.iterate_succ_apply', ← ih]; rfl
  · induction d with
    | zero => rfl
    | succ d ih =>
      rw [check_succ,
        checkStep_rw_miss cyclicNamespaces []
          (check cyclicNamespaces [] d) (tup "c" "obj" "rel" (sid "x"))
          rfl rfl rfl rfl (by simp)]
      simp [evalNode, evalNodes, subOfResult, combine, unionM, ih]

end Keto

namespace Keto

theorem splitOnChar_ne_nil (c : Char) (l : List Char) : splitOnChar c l ≠ [] := by
  cases l with
  | nil => simp [splitOnChar]
  | cons x xs =>
    rw [splitOnChar]
    cases h : splitOnChar c xs with
    | nil => simp
    | cons g gs => by_cases hx : x = c <;> simp [hx]

theorem splitOnChar_of_not_mem {c : Char} {a : List Char} (h : c ∉ a) :
    splitOnChar c a = [a] := by
  induction a with
  | nil => rfl
  | cons x xs ih =>
    have h1 : ¬(x = c) := fun heq => h (by simp [heq])
    have h2 : c ∉ xs := fun hm => h (List.mem_cons_of_mem _ hm)
    simp only [splitOnChar, ih h2]
    simp [h1]

theorem splitOnChar_append {c : Char} {a b : List Char} (h : c ∉ a) :
    splitOnChar c (a ++ c :: b) = a :: splitOnChar c b := by
  induction a with
  | nil =>
    show splitOnChar c (c :: b) = [] :: splitOnChar c b
    rw [splitOnChar]
    cases hb : splitOnChar c b with
    | nil => exact absurd hb (splitOnChar_ne_nil c b)
    | cons g gs => simp
  | cons x xs ih =>
    have h1 : ¬(x = c) := fun heq => h (by simp [heq])
    have h2 : c ∉ xs := fun hm => h (List.mem_cons_of_mem _ hm)
    show splitOnChar c (x :: (xs ++ c :: b)) = (x :: xs) :: splitOnChar c b
    rw [splitOnChar, ih h2]
    simp [h1]

theorem parseSubject_id {i : List Char} (h : '#' ∉ i) :
    parseSubject i = some (.subjectID ⟨i⟩) := by
  rw [parseSubject, splitOnChar_of_not_mem h]

theorem parseSubject_set {a b c : List Char}
    (hca : ':' ∉ a) (hcb : ':' ∉ b) (hha : '#' ∉ a) (hhb : '#' ∉ b)
    (hhc : '#' ∉ c) :
    parseSubject (a ++ ':' :: b ++ '#' :: c) = some (.subjectSet ⟨a⟩ ⟨b⟩ ⟨c⟩) := by
  have hhab : '#' ∉ a ++ ':' :: b := by
    intro hm
    simp only [List.mem_append, List.mem_cons] at hm
    rcases hm with hm | hm | hm
    · exact hha hm
    · exact absurd hm (by decide)
    · exact hhb hm
  have hassoc : a ++ ':' :: b ++ '#' :: c = (a ++ ':' :: b) ++ '#' :: c := by
    simp
  rw [parseSubject, hassoc, splitOnChar_append hhab,
    splitOnChar_of_not_mem hhc]
  dsimp only
  rw [splitOnChar_append hca, splitOnChar_of_not_mem hcb]

end Keto

namespace Keto

/-- C6: for every well-formed relation tuple — fields non-empty and free
of `:`, `#`, `@`, the subject a bare id or a subject set whose relation
may be empty — parsing the canonical string form yields the tuple again:
`parse(format(t)) = t`. -/
theorem parse_format_roundtrip (t : RelationTuple) (h : wfTuple t) :
    parse (format t) = some t := by
  unfold wfTuple at h
  obtain ⟨-, hns, -, hobj, -, hrel, hsub⟩ := h
  obtain ⟨hns1, hns2, hns3⟩ := hns
  obtain ⟨hobj1, hobj2, hobj3⟩ := hobj
  obtain ⟨hrel1, hrel2, hrel3⟩ := hrel
  have hh : ('#' : Char) ∉ t.ns.data ++ ':' :: t.obj.data := by
    intro hm
    simp only [List.mem_append, List.mem_cons] at hm
    rcases hm with hm | hm | hm
    · exact hns2 hm
    · exact absurd hm (by decide)
    · exact hobj2 hm
  have hpre : ('@' : Char) ∉ (t.ns.data ++ ':' :: t.obj.data) ++ '#' :: t.rel.data := by
    intro hm
    simp only [List.mem_append, List.mem_cons] at hm
    rcases hm with (hm | hm | hm) | hm | hm
    · exact hns3 hm
    · exact absurd hm (by decide)
    · exact hobj3 hm
    · exact absurd hm (by decide)
    · exact hrel3 hm
  cases hs : t.subj with
  | subjectID i =>
    rw [hs] at hsub
    obtain ⟨-, hi1, hi2, hi3⟩ := hsub
    have hfc : formatChars t =
        ((t.ns.data ++ ':' :: t.obj.data) ++ '#' :: t.rel.data) ++ '@' :: i.data := by
      simp [formatChars, subjectChars, hs]
    show parseChars (formatChars t) = some t
    rw [parseChars, hfc, splitOnChar_append hpre, splitOnChar_of_not_mem hi3]
    dsimp only
    rw [splitOnChar_append hh, splitOnChar_of_not_mem hrel2]
    dsimp only
    rw [splitOnChar_append hns1, splitOnChar_of_not_mem hobj1]
    dsimp only
    rw [parseSubject_id hi2]
    show some (⟨t.ns, t.obj, t.rel, Subject.subjectID i⟩ : RelationTuple) = some t
    rw [← hs]
  | subjectSet a b c =>
    rw [hs] at hsub
    obtain ⟨-, ha, -, hb, hc⟩ := hsub
    obtain ⟨ha1, ha2, ha3⟩ := ha
    obtain ⟨hb1, hb2, hb3⟩ := hb
    obtain ⟨hc1, hc2, hc3⟩ := hc
    have hfc : formatChars t =
        ((t.ns.data ++ ':' :: t.obj.data) ++ '#' :: t.rel.data) ++
          '@' :: (a.data ++ ':' :: b.data ++ '#' :: c.data) := by
      simp [formatChars, subjectChars, hs]
    have hsc : ('@' : Char) ∉ a.data ++ ':' :: b.data ++ '#' :: c.data := by
      intro hm
      simp only [List.mem_append, List.mem_cons] at hm
      rcases hm with (hm | hm | hm) | hm | hm
      · exact ha3 hm
      · exact absurd hm (by decide)
      · exact hb3 hm
      · exact absurd hm (by decide)
      · exact hc3 hm
    show parseChars (formatChars t) = some t
    rw [parseChars, hfc, splitOnChar_append hpre, splitOnChar_of_not_mem hsc]
    dsimp only
    rw [splitOnChar_append hh, splitOnChar_of_not_mem hrel2]
    dsimp only
    rw [splitOnChar_append hns1, splitOnChar_of_not_mem hobj1]
    dsimp only
    rw [parseSubject_set ha1 hb1 ha2 hb2 hc2]
    show some (⟨t.ns, t.obj, t.rel, Subject.subjectSet a b c⟩ : RelationTuple) = some t
    rw [← hs]

/-- Witness for C6: the fixture subject-set tuple
`doc:file#parent@doc:folder_c#` (empty inner relation) is well-formed and
round-trips, as does the plain tuple `acl:document#allow@alice`. -/
theorem parse_format_roundtrip_witness :
    (wfTuple (tup "doc" "file" "parent" (sset "doc" "folder_c" "")) ∧
      parse (format (tup "doc" "file" "parent" (sset "doc" "folder_c" ""))) =
        some (tup "doc" "file" "parent" (sset "doc" "folder_c" ""))) ∧
    (wfTuple (tup "acl" "document" "allow" (sid "alice")) ∧
      parse (format (tup "acl" "document" "allow" (sid "alice"))) =
        some (tup "acl" "document" "allow" (sid "alice"))) :=
  ⟨⟨by decide, parse_format_roundtrip _ (by decide)⟩,
   ⟨by decide, parse_format_roundtrip _ (by decide)⟩⟩

end Keto

namespace Keto

theorem keyed_eq {l : List (String × Namespace)}
    (hd : (l.map Prod.fst).Nodup) {k : String} {v w : Namespace}
    (h1 : (k, v) ∈ l) (h2 : (k, w) ∈ l) : v = w := by
  induction l with
  | nil => cases h1
  | cons x xs ih =>
    simp only [List.map_cons, List.nodup_cons] at hd
    rcases List.mem_cons.mp h1 with he1 | h1'
    · rcases List.mem_cons.mp h2 with he2 | h2'
      · exact (Prod.ext_iff.mp (he1.trans he2.symm)).2
      · have hk1 : x.1 = k := by rw [← he1]
        rw [hk1] at hd
        exact absurd (List.mem_map_of_mem Prod.fst h2') hd.1
    · rcases List.mem_cons.mp h2 with he2 | h2'
      · have hk1 : x.1 = k := by rw [← he2]
        rw [hk1] at hd
        exact absurd (List.mem_map_of_mem Prod.fst h1') hd.1
      · exact ih hd.2 h1' h2'

theorem find?_filter_ne (l : List (String × Namespace)) (k name : String)
    (h : name ≠ k) :
    (l.filter fun p => !(p.1 == k)).find? (fun p => p.1 == name) =
      l.find? (fun p => p.1 == name) := by
  induction l with
  | nil => rfl
  | cons x xs ih =>
    have hkn : (k == name) = false := by
      simp only [beq_eq_false_iff_ne]; exact fun he => h he.symm
    by_cases hk : x.1 = k
    · have hn : x.1 ≠ name := fun he => h (he ▸ hk)
      simp [List.filter_cons, List.find?_cons, hk, hn, hkn, ih]
    · by_cases hx : x.1 = name
      · simp [List.filter_cons, List.find?_cons, hk, hx, h, ih]
      · simp [List.filter_cons, List.find?_cons, hk, hx, h, ih]

/-- C8: `GetNamespaceByName` returns the namespace stored under exactly
the given name when present (the manager's keys are distinct), and a
not-found error for every name not present; the lookup depends on the
`byName` map alone and modifies nothing (the model is a pure function of
the state). -/
theorem getNamespaceByName_spec :
    (∀ (m : MemoryNamespaceManager) (name : String) (n : Namespace),
      (m.byName.map Prod.fst).Nodup →
        ((name, n) ∈ m.byName ↔ GetNamespaceByName m name = .ok n)) ∧
    (∀ (m : MemoryNamespaceManager) (name : String),
      GetNamespaceByName m name = .error .notFound ↔
        name ∉ m.byName.map Prod.fst) := by
  constructor
  · intro m name n hd
    constructor
    · intro hmem
      cases hf : m.byName.find? (fun p => p.1 == name) with
      | none =>
        rw [List.find?_eq_none] at hf
        exact absurd (by simp : (((name, n) : String × Namespace).1 == name) = true)
          (hf _ hmem)
      | some q =>
        have hq1 : q.1 = name := by simpa using List.find?_some hf
        have hq2 : q ∈ m.byName := List.mem_of_find?_eq_some hf
        have hqv : q.2 = n := keyed_eq hd (by rw [← hq1]; exact hq2) hmem
        simp only [GetNamespaceByName, hf, hqv]
    · intro hok
      cases hf : m.byName.find? (fun p => p.1 == name) with
      | none => simp only [GetNamespaceByName, hf] at hok; exact absurd hok (by simp)
      | some q =>
        simp only [GetNamespaceByName, hf, Except.ok.injEq] at hok
        have hq1 : q.1 = name := by simpa using List.find?_some hf
        have hq2 : q ∈ m.byName := List.mem_of_find?_eq_some hf
        rw [← hq1, ← hok]
        exact hq2
  · intro m name
    cases hf : m.byName.find? (fun p => p.1 == name) with
    | none =>
      simp only [GetNamespaceByName, hf]
      refine iff_of_true trivial ?_
      intro hmem
      rw [List.find?_eq_none] at hf
      rw [List.mem_map] at hmem
      obtain ⟨p, hp, hp1⟩ := hmem
      exact absurd (by simp [hp1] : (p.1 == name) = true) (hf p hp)
    | some q =>
      simp only [GetNamespaceByName, hf]
      refine iff_of_false (by simp) ?_
      intro h
      have hq1 : q.1 = name := by simpa using List.find?_some hf
      exact h (hq1 ▸ List.mem_map_of_mem Prod.fst (List.mem_of_find?_eq_some hf))

end Keto

namespace Keto

/-- Witness for C8: the lookup succeeds on a stored name of a one-entry
manager (whose keys are trivially distinct) and misses on an absent name. -/
theorem getNamespaceByName_spec_witness :
    (((NewMemoryNamespaceManager [{ name := "a" }]).byName.map Prod.fst).Nodup ∧
      ((("a" : String), ({ name := "a" } : Namespace)) ∈
          (NewMemoryNamespaceManager [{ name := "a" }]).byName ↔
        GetNamespaceByName (NewMemoryNamespaceManager [{ name := "a" }]) "a" =
          .ok { name := "a" })) ∧
    (GetNamespaceByName (NewMemoryNamespaceManager [{ name := "a" }]) "b" =
        .error .notFound ↔
      "b" ∉ (NewMemoryNamespaceManager [{ name := "a" }]).byName.map Prod.fst) :=
  ⟨⟨by decide, getNamespaceByName_spec.1 _ "a" _ (by decide)⟩,
   getNamespaceByName_spec.2 _ "b"⟩

theorem get_foldl (nn : List Namespace) (acc : List (String × Namespace))
    (name : String) :
    (nn.foldl (fun l n => mapInsert n.name n l) acc).find?
        (fun p => p.1 == name) =
      match nn.reverse.find? (fun n => n.name == name) with
      | some n => some (n.name, n)
      | none => acc.find? (fun p => p.1 == name) := by
  induction nn generalizing acc with
  | nil => simp
  | cons x xs ih =>
    simp only [List.foldl_cons, List.reverse_cons]
    rw [ih, List.find?_append]
    cases h : xs.reverse.find? (fun n => n.name == name) with
    | some n => simp
    | none =>
      simp only [Option.none_or]
      by_cases hx : x.name = name
      · simp [List.find?_cons, hx, mapInsert]
      · have hb : (x.name == name) = false := by
          simp only [beq_eq_false_iff_ne]; exact hx
        simp [List.find?_cons, hb, mapInsert,
          find?_filter_ne acc x.name name (fun he => hx he.symm)]

/-- C9: the in-memory manager keys namespaces solely by name:
construction keeps the last namespace given for each name, `add` stores a
namespace under its name replacing any previous entry, `delete` removes
the entry of the namespace's name whatever its other fields, and neither
operation affects any other name's entry. -/
theorem memory_manager_name_keyed :
    (∀ (nn : List Namespace) (name : String),
      GetNamespaceByName (NewMemoryNamespaceManager nn) name =
        match nn.reverse.find? (fun n => n.name == name) with
        | some n => Except.ok n
        | none => Except.error NsError.notFound) ∧
    (∀ (m : MemoryNamespaceManager) (n : Namespace),
      GetNamespaceByName (m.add n) n.name = .ok n) ∧
    (∀ (m : MemoryNamespaceManager) (n : Namespace),
      GetNamespaceByName (m.remove n) n.name = .error .notFound) ∧
    (∀ (m : MemoryNamespaceManager) (n : Namespace) (name : String),
      name ≠ n.name →
        GetNamespaceByName (m.add n) name = GetNamespaceByName m name ∧
        GetNamespaceByName (m.remove n) name = GetNamespaceByName m name) := by
  refine ⟨fun nn name => ?_, fun m n => ?_, fun m n => ?_,
    fun m n name hne => ⟨?_, ?_⟩⟩
  · show (match (NewMemoryNamespaceManager nn).byName.find?
        (fun p => p.1 == name) with
      | some p => Except.ok p.2
      | none => Except.error NsError.notFound) = _
    rw [show (NewMemoryNamespaceManager nn).byName =
        nn.foldl (fun l n => mapInsert n.name n l) [] from rfl, get_foldl]
    cases h : nn.reverse.find? (fun n => n.name == name) with
    | some n => simp
    | none => simp
  · simp [GetNamespaceByName, MemoryNamespaceManager.add, mapInsert,
      List.find?_cons]
  · have hnone : (m.byName.filter fun p => !(p.1 == n.name)).find?
        (fun p => p.1 == n.name) = none := by
      rw [List.find?_eq_none]
      intro x hx
      have hf := (List.mem_filter.mp hx).2
      simp only [Bool.not_eq_true'] at hf
      simp [hf]
    simp [GetNamespaceByName, MemoryNamespaceManager.remove, hnone]
  · have hb : (n.name == name) = false := by
      simp only [beq_eq_false_iff_ne]; exact fun he => hne he.symm
    simp [GetNamespaceByName, MemoryNamespaceManager.add, mapInsert,
      List.find?_cons, hb, find?_filter_ne m.byName n.name name hne]
  · simp [GetNamespaceByName, MemoryNamespaceManager.remove,
      find?_filter_ne m.byName n.name name hne]

/-- Witness for C9: adding and deleting a namespace named `a` leaves the
entry for `b` untouched on a concrete manager. -/
theorem memory_manager_name_keyed_witness :
    GetNamespaceByName
        ((NewMemoryNamespaceManager [{ name := "b" }]).add { name := "a" }) "b" =
      GetNamespaceByName (NewMemoryNamespaceManager [{ name := "b" }]) "b" ∧
    GetNamespaceByName
        ((NewMemoryNamespaceManager [{ name := "b" }]).remove { name := "a" }) "b" =
      GetNamespaceByName (NewMemoryNamespaceManager [{ name := "b" }]) "b" :=
  memory_manager_name_keyed.2.2.2 _ { name := "a" } "b" (by decide)

/-- C10: `ShouldReload` answers `false` exactly when the new value equals,
element for element and in order, the enumeration of the stored
namespaces; it is therefore sound — `false` implies the stored namespaces
equal the new value as a multiset — but not complete: a new value holding
exactly the stored namespaces in a different enumeration order yields
`true`. -/
theorem shouldReload_sound_incomplete :
    (∀ (m : MemoryNamespaceManager) (v : List Namespace),
      ShouldReload m v = false ↔ v = m.namespaces) ∧
    (∀ (m : MemoryNamespaceManager) (v : List Namespace),
      ShouldReload m v = false → v.Perm m.namespaces) ∧
    ShouldReload (NewMemoryNamespaceManager [{ name := "n0" }, { name := "n1" }])
        [{ name := "n0" }, { name := "n1" }] = true ∧
    List.Perm [({ name := "n0" } : Namespace), { name := "n1" }]
      (NewMemoryNamespaceManager
        [{ name := "n0" }, { name := "n1" }]).namespaces := by
  have hiff : ∀ (m : MemoryNamespaceManager) (v : List Namespace),
      ShouldReload m v = false ↔ v = m.namespaces := by
    intro m v; simp [ShouldReload]
  refine ⟨hiff, fun m v h => ?_, by decide, by decide⟩
  rw [(hiff m v).mp h]

/-- Witness for C10: on a manager holding one namespace, `ShouldReload`
of the exact enumeration is `false`, hence a multiset equality. -/
theorem shouldReload_sound_incomplete_witness :
    List.Perm [({ name := "n0" } : Namespace)]
      (NewMemoryNamespaceManager [{ name := "n0" }]).namespaces :=
  shouldReload_sound_incomplete.2.1 _ _ (by decide)

end Keto

namespace Keto

theorem anyLeafList_of_mem {p : String → Bool} {ts : List Tree} {tr : Tree}
    (h : tr ∈ ts) (ha : Tree.anyLeaf p tr = true) :
    Tree.anyLeafList p ts = true := by
  induction ts with
  | nil => cases h
  | cons x xs ih =>
    rw [Tree.anyLeafList]
    rcases List.mem_cons.mp h with rfl | hx
    · rw [ha, Bool.true_or]
    · rw [ih hx, Bool.or_true]

theorem anyLeaf_node_of_mem {p : String → Bool} {l : String} {ts : List Tree}
    {tr : Tree} (h : tr ∈ ts) (ha : Tree.anyLeaf p tr = true) :
    Tree.anyLeaf p (.node l ts) = true := by
  cases ts with
  | nil => cases h
  | cons x xs => rw [Tree.anyLeaf]; exact anyLeafList_of_mem h ha

theorem nodesPositive_mem {nodes : List RewriteNode} {c : RewriteNode}
    (hp : nodesPositive nodes = true) (hm : c ∈ nodes) :
    nodePositive c = true := by
  induction nodes with
  | nil => cases hm
  | cons x xs ih =>
    rw [nodesPositive, Bool.and_eq_true] at hp
    rcases List.mem_cons.mp hm with rfl | hx
    · exact hp.1
    · exact ih hp.2 hx

theorem storedLeafLabel_of_mem {store : List RelationTuple}
    {t : RelationTuple} (h : t ∈ store) :
    storedLeafLabel store (format t) = true := by
  rw [storedLeafLabel, List.any_eq_true]
  exact ⟨t, h, by simp⟩

/-- C7 counterexample: with the configuration
`r = Union(InvertResult(ComputedSubjectSet(d)))` and an empty store,
`check(n:o#r@x, 3)` is `IsMember`, yet its explanation tree contains no
leaf labelled by a stored tuple (nothing is stored), so no root-to-leaf
path of stored tuples exists. -/
theorem tree_justifies_counterexample :
    (check invertNamespaces [] 3 (tup "n" "o" "r" (sid "x"))).membership
        = .isMember ∧
    ((check invertNamespaces [] 3 (tup "n" "o" "r" (sid "x"))).tree.map
        (Tree.anyLeaf (storedLeafLabel []))).getD false = false := by
  decide

end Keto

namespace Keto

theorem rewriteNode_sizeOf_pos (node : RewriteNode) : 0 < sizeOf node := by
  cases node <;> simp

theorem evalNode_justified_bounded (store : List RelationTuple)
    (rec : RelationTuple → CheckResult)
    (hrec : ∀ q, (rec q).membership = .isMember →
      ∃ tr, (rec q).tree = some tr ∧
        Tree.anyLeaf (storedLeafLabel store) tr = true)
    (n o : String) (s : Subject) :
    ∀ (k : Nat) (node : RewriteNode), sizeOf node ≤ k →
      nodePositive node = true →
      (evalNode store rec n o s node).membership = .isMember →
      ∃ tr ∈ (evalNode store rec n o s node).trees,
        Tree.anyLeaf (storedLeafLabel store) tr = true := by
  intro k
  induction k with
  | zero =>
    intro node hsize
    exact absurd hsize (by have := rewriteNode_sizeOf_pos node; omega)
  | succ k ih =>
    intro node hsize hpos hm
    match node with
    | .computedSubjectSet r =>
      obtain ⟨tr, htr, hleaf⟩ := hrec ⟨n, o, r, s⟩ hm
      refine ⟨tr, ?_, hleaf⟩
      show tr ∈ (rec ⟨n, o, r, s⟩).tree.toList
      rw [htr]; simp
    | .tupleToSubjectSet r cr =>
      rw [show evalNode store rec n o s (.tupleToSubjectSet r cr)
          = combine .union ((subjectSetTuples store n o r).map fun tgt =>
              subTolerant (rec ⟨tgt.1, tgt.2.1, cr, s⟩)) from rfl] at hm ⊢
      obtain ⟨sub, hsub, hsm⟩ := combine_union_isMember.mp hm
      obtain ⟨tgt, htgt, rfl⟩ := List.mem_map.mp hsub
      obtain ⟨hrm, hre⟩ := subTolerant_isMember.mp hsm
      obtain ⟨tr, htr, hleaf⟩ := hrec _ hrm
      refine ⟨tr, ?_, hleaf⟩
      rw [combine_trees]
      refine List.mem_flatten.mpr ⟨(subTolerant (rec ⟨tgt.1, tgt.2.1, cr, s⟩)).trees,
        List.mem_map_of_mem _ hsub, ?_⟩
      show tr ∈ (subTolerant (rec ⟨tgt.1, tgt.2.1, cr, s⟩)).trees
      rw [subTolerant, if_neg (by rw [hre]; simp)]
      show tr ∈ (rec ⟨tgt.1, tgt.2.1, cr, s⟩).tree.toList
      rw [htr]; simp
    | .invertResult child =>
      rw [nodePositive] at hpos
      exact absurd hpos (by simp)
    | .subjectSetRewrite op children =>
      rw [nodePositive, Bool.and_eq_true] at hpos
      obtain ⟨hne, hcpos⟩ := hpos
      have hsubs : evalNodes store rec n o s children
          = children.map (evalNode store rec n o s) :=
        evalNodes_eq_map store rec n o s children
      rw [show evalNode store rec n o s (.subjectSetRewrite op children)
          = combine op (evalNodes store rec n o s children) from rfl] at hm ⊢
      have step : ∀ c ∈ children,
          (evalNode store rec n o s c).membership = .isMember →
          ∃ tr ∈ (evalNode store rec n o s c).trees,
            Tree.anyLeaf (storedLeafLabel store) tr = true := by
        intro c hc hcm
        have hlt : sizeOf c < sizeOf (RewriteNode.subjectSetRewrite op children) := by
          have h1 := List.sizeOf_lt_of_mem hc
          simp only [RewriteNode.subjectSetRewrite.sizeOf_spec]
          omega
        exact ih c (by omega) (nodesPositive_mem hcpos hc) hcm
      have exists_child : ∃ c ∈ children,
          (evalNode store rec n o s c).membership = .isMember := by
        cases op with
        | union =>
          obtain ⟨sub, hsub, hsm⟩ := combine_union_isMember.mp hm
          rw [hsubs] at hsub
          obtain ⟨c, hc, rfl⟩ := List.mem_map.mp hsub
          exact ⟨c, hc, hsm⟩
        | intersection =>
          rw [combine_membership] at hm
          have hall := intersectM_eq_isMember.mp hm
          cases hch : children with
          | nil => rw [hch] at hne; exact absurd hne (by simp)
          | cons c cs =>
            refine ⟨c, List.mem_cons_self c cs, ?_⟩
            exact hall _ (by rw [hsubs, hch]; simp)
        | exclusion =>
          rw [combine_membership] at hm
          cases hch : children with
          | nil => rw [hch] at hne; exact absurd hne (by simp)
          | cons c cs =>
            rw [hsubs, hch] at hm
            simp only [List.map_cons] at hm
            have := exclusionM_eq_isMember.mp hm
            exact ⟨c, List.mem_cons_self c cs, this.1⟩
      obtain ⟨c, hc, hcm⟩ := exists_child
      obtain ⟨tr, htr, hleaf⟩ := step c hc hcm
      refine ⟨tr, ?_, hleaf⟩
      rw [combine_trees]
      exact List.mem_flatten.mpr ⟨(evalNode store rec n o s c).trees,
        List.mem_map_of_mem _ (by rw [hsubs]; exact List.mem_map_of_mem _ hc), htr⟩

end Keto

namespace Keto

theorem check_justified :
    ∀ (cfg : List Namespace) (store : List RelationTuple),
      cfgPositive cfg = true →
      ∀ (d : Nat) (t : RelationTuple),
        (check cfg store d t).membership = .isMember →
        ∃ tr, (check cfg store d t).tree = some tr ∧ tr.label = format t ∧
          Tree.anyLeaf (storedLeafLabel store) tr = true := by
  intro cfg store hcfg d
  induction d with
  | zero => intro t h; exact absurd h (by simp [check])
  | succ d ih =>
    intro t h
    have hrec : ∀ q, (check cfg store d q).membership = .isMember →
        ∃ tr, (check cfg store d q).tree = some tr ∧
          Tree.anyLeaf (storedLeafLabel store) tr = true := by
      intro q hq
      obtain ⟨tr, h1, _, h3⟩ := ih q hq
      exact ⟨tr, h1, h3⟩
    rw [check_succ] at h ⊢
    cases hns : lookupNs cfg t.ns with
    | none => simp only [checkStep, hns] at h; exact absurd h (by simp)
    | some nsp =>
      cases hrl : lookupRel nsp t.rel with
      | none => simp only [checkStep, hns, hrl] at h; exact absurd h (by simp)
      | some rl =>
        simp only [checkStep, hns, hrl] at h ⊢
        obtain ⟨sub, hsub, hsm⟩ := combine_union_isMember.mp h
        refine ⟨_, rfl, rfl, ?_⟩
        suffices hx : ∃ tr' ∈ sub.trees,
            Tree.anyLeaf (storedLeafLabel store) tr' = true by
          obtain ⟨tr', htr', hleaf⟩ := hx
          refine anyLeaf_node_of_mem ?_ hleaf
          rw [combine_trees]
          exact List.mem_flatten.mpr
            ⟨sub.trees, List.mem_map_of_mem _ hsub, htr'⟩
        rcases List.mem_cons.mp hsub with rfl | hsub2
        · by_cases hmem : t ∈ store
          · refine ⟨.node (format t) [], ?_, ?_⟩
            · rw [if_pos hmem]; simp
            · exact storedLeafLabel_of_mem hmem
          · rw [if_neg hmem] at hsm; exact absurd hsm (by simp)
        · rcases List.mem_append.mp hsub2 with hexp | hrw
          · obtain ⟨tgt, htgt, rfl⟩ := List.mem_map.mp hexp
            obtain ⟨hrm, hre⟩ := subTolerant_isMember.mp hsm
            obtain ⟨tr', htr', hleaf⟩ := hrec _ hrm
            refine ⟨tr', ?_, hleaf⟩
            rw [subTolerant, if_neg (by rw [hre]; simp)]
            show tr' ∈ (check cfg store d _).tree.toList
            rw [htr']; simp
          · cases hsr : rl.subjectSetRewrite with
            | none => simp only [hsr] at hrw; cases hrw
            | some node =>
              simp only [hsr, List.mem_singleton] at hrw
              subst hrw
              have hnsp : nsp ∈ cfg := List.mem_of_find?_eq_some hns
              have hrlm : rl ∈ nsp.relations := List.mem_of_find?_eq_some hrl
              have hpos : nodePositive node = true := by
                rw [cfgPositive, List.all_eq_true] at hcfg
                have h1 := hcfg nsp hnsp
                rw [List.all_eq_true] at h1
                have h2 := h1 rl hrlm
                simp only [hsr] at h2
                exact h2
              exact evalNode_justified_bounded store _ hrec t.ns t.obj t.subj
                (sizeOf node) node (Nat.le_refl _) hpos hsm

/-- C7 (amended): restricted to configurations whose rewrites satisfy the
spec's own §3.3 invariants — every operator node has at least one child
and no `InvertResult` occurs — whenever check returns `IsMember` the
explanation tree is rooted at the query's canonical string and contains a
root-to-leaf path whose leaf is a stored tuple; and on the full fixtures
the `resource:topsecret#delete@mark` tree contains the claimed path to
`level:superadmin#member@mark` and the path through
`resource:topsecret#owner@mark` to `group:editors#member@mark`, both of
whose endpoints are stored tuples. -/
theorem tree_justifies_positive :
    (∀ (cfg : List Namespace) (store : List RelationTuple),
      cfgPositive cfg = true →
      ∀ (d : Nat) (t : RelationTuple),
        (check cfg store d t).membership = .isMember →
        ∃ tr, (check cfg store d t).tree = some tr ∧ tr.label = format t ∧
          Tree.anyLeaf (storedLeafLabel store) tr = true) ∧
    ((fixtureCheck (tup "resource" "topsecret" "delete" (sid "mark"))).tree.map
        (hasPath ["resource:topsecret#delete@mark",
          "level:superadmin#member@mark"])).getD false = true ∧
    ((fixtureCheck (tup "resource" "topsecret" "delete" (sid "mark"))).tree.map
        (hasPath ["resource:topsecret#delete@mark",
          "resource:topsecret#owner@mark",
          "group:editors#member@mark"])).getD false = true ∧
    ((fixtureCheck (tup "resource" "topsecret" "delete" (sid "mark"))).tree.map
        Tree.label).getD "" = "resource:topsecret#delete@mark" ∧
    storedLeafLabel fixtureStore "level:superadmin#member@mark" = true ∧
    storedLeafLabel fixtureStore "group:editors#member@mark" = true :=
  ⟨check_justified, by decide, by decide, by decide, by decide, by decide⟩

/-- Witness for C7 (amended): the invert-free fixture configuration
(`doc`, `group`, `level`, `resource`) satisfies the positivity invariant,
`doc:document#owner@user` is a member at depth 100, and the amended
theorem yields its justifying tree. -/
theorem tree_justifies_positive_witness :
    ∃ tr, (check fixtureNoAcl fixtureStore 100
        (tup "doc" "document" "owner" (sid "user"))).tree = some tr ∧
      tr.label = format (tup "doc" "document" "owner" (sid "user")) ∧
      Tree.anyLeaf (storedLeafLabel fixtureStore) tr = true :=
  tree_justifies_positive.1 fixtureNoAcl fixtureStore (by decide) 100 _ (by decide)

end Keto

